import Mathlib

/-!
Verification of the citation-recognition and citation-network core of the
caselaw repository.

Embedded source files:
* `src/frontend/lib/types.ts` — citation pattern matching (`patterns`,
  `extractCitations`, `hasCitations`).
* `src/frontend/components/decision/CitationLink.tsx` — `LinkedText`
  (text linker).
* `src/unnamed/part_002` — `CitationGraph` (ego-network builder) and
  `useForceSimulation` (force simulation tick).

Texts are embedded as `List Char` (one entry per UTF-16 code unit of the
JavaScript string; all characters involved lie in the BMP, where code
units and code points coincide).  The JavaScript regexes are embedded as
deterministic character-level parsers; each parser definition carries the
regex fragment it translates.  JavaScript numbers are embedded as `ℚ`,
with `Math.sqrt` passed in as an oracle function.
-/

namespace Caselaw

/-! ## JavaScript regex character classes -/

/-- JS `\w` word characters: `[A-Za-z0-9_]`. -/
def isWordChar (c : Char) : Bool :=
  c.isAlpha || c.isDigit || c = '_'

/-- JS `\s` whitespace characters (ECMA-262 WhiteSpace ∪ LineTerminator). -/
def isJsSpace (c : Char) : Bool :=
  c = ' ' || c = '\t' || c = '\n' || c = '\x0b' || c = '\x0c' || c = '\r' ||
  c = ' ' || c = ' ' || (' ' ≤ c && c ≤ ' ') ||
  c = ' ' || c = ' ' || c = ' ' || c = ' ' ||
  c = '　' || c = '﻿'

/-- Characters of the class `[IVX]` (parts of a federal-reporter citation). -/
def isRoman (c : Char) : Bool :=
  c = 'I' || c = 'V' || c = 'X'

/-- ASCII upper-case letters `[A-Z]`. -/
def isUpperAZ (c : Char) : Bool :=
  'A' ≤ c && c ≤ 'Z'

/-! ## Parser primitives

A parser consumes a prefix of the input and returns the remaining
suffix (plus captures).  All primitives return a true suffix of their
input, which is what makes the match text recoverable as a slice. -/

/-- Match a literal character sequence, returning the rest of the input. -/
def litP : List Char → List Char → Option (List Char)
  | [], s => some s
  | _ :: _, [] => none
  | c :: cs, x :: xs => if x = c then litP cs xs else none

/-- Match a literal character sequence case-insensitively (ASCII folding,
as JS `/i` canonicalisation behaves on the ASCII patterns embedded here). -/
def litCIP : List Char → List Char → Option (List Char)
  | [], s => some s
  | _ :: _, [] => none
  | c :: cs, x :: xs => if x.toLower = c.toLower then litCIP cs xs else none

/-- Greedy `X+` for a character class: fails on zero characters,
otherwise returns the (nonempty) consumed run and the rest. -/
def takeWhile1 (f : Char → Bool) (s : List Char) : Option (List Char × List Char) :=
  if (s.takeWhile f).isEmpty then none else some (s.takeWhile f, s.dropWhile f)

/-! ## Family parsers

Each parser embeds one entry of `patterns` in `src/frontend/lib/types.ts`
(lines 197-209) as a deterministic parser matching at one position.
`prev` is the character preceding the position (`none` at offset 0); it
decides the leading `\b` word-boundary assertions. -/

/-- Whether the preceding character exists and is a word character. -/
def prevIsWord (prev : Option Char) : Bool :=
  match prev with
  | none => false
  | some c => isWordChar c

/-- First character of the rest, if any, is a word character (used for the
trailing `\b` of the docket pattern). -/
def headIsWord (s : List Char) : Bool :=
  match s with
  | [] => false
  | c :: _ => isWordChar c

/-- Alternation `(BGE|ATF|DTF)` of the `bge` pattern; captures the marker. -/
def pMarker (s : List Char) : Option (List Char × List Char) :=
  match litP ['B', 'G', 'E'] s with
  | some r => some (['B', 'G', 'E'], r)
  | none =>
    match litP ['A', 'T', 'F'] s with
    | some r => some (['A', 'T', 'F'], r)
    | none =>
      match litP ['D', 'T', 'F'] s with
      | some r => some (['D', 'T', 'F'], r)
      | none => none

/-- Greedy loop `(?:\.\d+)*` inside the `bge` pattern's section suffix.
The first argument is fuel (call it with the length of the input). -/
def dotNumTail : ℕ → List Char → List Char
  | 0, s => s
  | n + 1, s =>
    match s with
    | '.' :: rest =>
      match takeWhile1 Char.isDigit rest with
      | some (_, r) => dotNumTail n r
      | none => s
    | _ => s

/-- Optional section suffix `(?:\s+E\.\s*(\d+(?:\.\d+)*))?` of the `bge`
pattern: consumed when it matches in full, otherwise left untouched. -/
def pBgeSection (s : List Char) : List Char :=
  match takeWhile1 isJsSpace s with
  | none => s
  | some (_, r1) =>
    match litP ['E', '.'] r1 with
    | none => s
    | some r2 =>
      match takeWhile1 Char.isDigit (r2.dropWhile isJsSpace) with
      | none => s
      | some (_, r4) => dotNumTail r4.length r4

/-- The `bge` pattern
`/\b(BGE|ATF|DTF)\s+(\d+)\s+([IVX]+)\s+(\d+)(?:\s+E\.\s*(\d+(?:\.\d+)*))?/g`.
Captures (marker, volume, part, page) for the `normalized` field. -/
def pBge (prev : Option Char) (s : List Char) :
    Option ((List Char × List Char × List Char × List Char) × List Char) :=
  if prevIsWord prev then none else
  match pMarker s with
  | none => none
  | some (mk, r1) =>
  match takeWhile1 isJsSpace r1 with
  | none => none
  | some (_, r2) =>
  match takeWhile1 Char.isDigit r2 with
  | none => none
  | some (vol, r3) =>
  match takeWhile1 isJsSpace r3 with
  | none => none
  | some (_, r4) =>
  match takeWhile1 isRoman r4 with
  | none => none
  | some (part, r5) =>
  match takeWhile1 isJsSpace r5 with
  | none => none
  | some (_, r6) =>
  match takeWhile1 Char.isDigit r6 with
  | none => none
  | some (page, r7) => some ((mk, vol, part, page), pBgeSection r7)

/-- Exactly four digits, `\d{4}`. -/
def pDigits4 (s : List Char) : Option (List Char × List Char) :=
  match s with
  | a :: b :: c :: d :: r =>
    if a.isDigit && b.isDigit && c.isDigit && d.isDigit then
      some ([a, b, c, d], r)
    else none
  | _ => none

/-- The `docket` pattern `/\b(\d[A-Z])_(\d+)\/(\d{4})\b/g`.
Captures (chamber, number, year). -/
def pDocket (prev : Option Char) (s : List Char) :
    Option ((List Char × List Char × List Char) × List Char) :=
  if prevIsWord prev then none else
  match s with
  | d :: u :: '_' :: r1 =>
    if d.isDigit && isUpperAZ u then
      match takeWhile1 Char.isDigit r1 with
      | none => none
      | some (num, r2) =>
      match litP ['/'] r2 with
      | none => none
      | some r3 =>
      match pDigits4 r3 with
      | none => none
      | some (year, r4) =>
        if headIsWord r4 then none else some (([d, u], num, year), r4)
    else none
  | _ => none

/-- Optional qualifier `(?:\s*(?:Abs\.|al\.|para\.)\s*\d+)?` of the
`article` pattern (case-insensitive): consumed when it matches in full. -/
def pQualAbs (s : List Char) : List Char :=
  match (litCIP ['A', 'b', 's', '.'] (s.dropWhile isJsSpace) <|>
      litCIP ['a', 'l', '.'] (s.dropWhile isJsSpace) <|>
      litCIP ['p', 'a', 'r', 'a', '.'] (s.dropWhile isJsSpace)) with
  | none => s
  | some r2 =>
    match takeWhile1 Char.isDigit (r2.dropWhile isJsSpace) with
    | none => s
    | some (_, r4) => r4

/-- Optional qualifier `(?:\s*(?:lit\.|Bst\.)\s*[a-z])?` of the `article`
pattern (under `/i` the class `[a-z]` matches ASCII letters of either case). -/
def pQualLit (s : List Char) : List Char :=
  match (litCIP ['l', 'i', 't', '.'] (s.dropWhile isJsSpace) <|>
      litCIP ['B', 's', 't', '.'] (s.dropWhile isJsSpace)) with
  | none => s
  | some r2 =>
    match r2.dropWhile isJsSpace with
    | c :: r4 => if c.isAlpha then r4 else s
    | [] => s

/-- Statute-code alternation
`(OR|ZGB|StGB|BV|CO|CC|CP|Cst\.?|SchKG|VwVG|BGG|ZPO|StPO|ATSG)` of the
`article` pattern, case-insensitive, alternatives in source order,
`Cst\.?` consuming an optional dot greedily. -/
def pCode (s : List Char) : Option (List Char) :=
  litCIP ['O', 'R'] s <|> litCIP ['Z', 'G', 'B'] s <|>
  litCIP ['S', 't', 'G', 'B'] s <|> litCIP ['B', 'V'] s <|>
  litCIP ['C', 'O'] s <|> litCIP ['C', 'C'] s <|> litCIP ['C', 'P'] s <|>
  (match litCIP ['C', 's', 't'] s with
   | none => none
   | some r =>
     match r with
     | '.' :: r2 => some r2
     | _ => some r) <|>
  litCIP ['S', 'c', 'h', 'K', 'G'] s <|> litCIP ['V', 'w', 'V', 'G'] s <|>
  litCIP ['B', 'G', 'G'] s <|> litCIP ['Z', 'P', 'O'] s <|>
  litCIP ['S', 't', 'P', 'O'] s <|> litCIP ['A', 'T', 'S', 'G'] s

/-- The `article` pattern
`/\b(Art\.|ยง)\s*(\d+(?:\s*(?:Abs\.|al\.|para\.)\s*\d+)?(?:\s*(?:lit\.|Bst\.)\s*[a-z])?)\s+(OR|ZGB|...|ATSG)/gi`.
The second marker alternative is the two-character sequence U+0E22 U+0E07
exactly as it appears in the source.  The leading `\b` holds iff the
word-ness of the preceding character differs from that of the first
character of the match.  No captures are used by `extractCitations`. -/
def pArticle (prev : Option Char) (s : List Char) : Option (Unit × List Char) :=
  match s with
  | [] => none
  | c :: _ =>
    if prevIsWord prev = isWordChar c then none else
    match (litCIP ['A', 'r', 't', '.'] s <|> litP ['ย', 'ง'] s) with
    | none => none
    | some r1 =>
      match takeWhile1 Char.isDigit (r1.dropWhile isJsSpace) with
      | none => none
      | some (_, r3) =>
        match takeWhile1 isJsSpace (pQualLit (pQualAbs r3)) with
        | none => none
        | some (_, r6) =>
          match pCode r6 with
          | none => none
          | some r7 => some ((), r7)

/-! ## The exec loop

`scanGo` embeds the JS `while ((match = re.exec(text)) !== null)` loop on
a global regex whose `lastIndex` was reset to 0: it finds the leftmost
match at or after the current position, records it, and resumes at the
match end.  The first argument is fuel (one unit per character suffices,
plus one); `prev` is the character before the current position, feeding
the `\b` assertions. -/

structure RawMatch (α : Type) where
  start : ℕ
  stop : ℕ
  text : List Char
  cap : α

def scanStep {α : Type} (m : Option Char → List Char → Option (α × List Char))
    (rec : Option Char → ℕ → List Char → List (RawMatch α))
    (prev : Option Char) (pos : ℕ) (s : List Char) : List (RawMatch α) :=
  match m prev s with
  | some (a, r) =>
    if s.length - r.length = 0 then []
    else
      ⟨pos, pos + (s.length - r.length), s.take (s.length - r.length), a⟩ ::
        rec ((s.take (s.length - r.length)).getLast?)
          (pos + (s.length - r.length)) r
  | none =>
    match s with
    | [] => []
    | c :: s2 => rec (some c) (pos + 1) s2

def scanGo {α : Type} (m : Option Char → List Char → Option (α × List Char)) :
    ℕ → Option Char → ℕ → List Char → List (RawMatch α)
  | 0, _, _, _ => []
  | fuel + 1, prev, pos, s => scanStep m (scanGo m fuel) prev pos s

/-- All matches of one pattern family over a text, leftmost-first. -/
def scanAll {α : Type} (m : Option Char → List Char → Option (α × List Char))
    (text : List Char) : List (RawMatch α) :=
  scanGo m (text.length + 1) none 0 text

/-! ## The Recognizer: `extractCitations` and `hasCitations`
(`src/frontend/lib/types.ts`, lines 186-275) -/

/-- The `type` discriminator of a citation match.  All matches of the
`bge` family are tagged `"bge"` by the source, even for ATF/DTF. -/
inductive CitType where
  | bge
  | docket
  | article
deriving DecidableEq, Repr

/-- `CitationMatch` of `src/frontend/lib/types.ts` (lines 188-194).
The source's `end` field is named `stop` here (`end` is a Lean keyword). -/
structure CitationMatch where
  text : List Char
  type : CitType
  start : ℕ
  stop : ℕ
  normalized : Option (List Char) := none
deriving DecidableEq, Repr

/-- Matches of the `bge` pattern with their `normalized` field
`` `${match[1]} ${match[2]} ${match[3]} ${match[4]}` ``. -/
def bgeMatches (t : List Char) : List CitationMatch :=
  (scanAll pBge t).map fun q =>
    { text := q.text, type := CitType.bge, start := q.start, stop := q.stop,
      normalized := some (q.cap.1 ++ ' ' :: (q.cap.2.1 ++ ' ' ::
        (q.cap.2.2.1 ++ ' ' :: q.cap.2.2.2))) }

/-- Matches of the `docket` pattern with their `normalized` field
`` `${match[1]}_${match[2]}/${match[3]}` ``. -/
def docketMatches (t : List Char) : List CitationMatch :=
  (scanAll pDocket t).map fun q =>
    { text := q.text, type := CitType.docket, start := q.start, stop := q.stop,
      normalized := some (q.cap.1 ++ '_' :: (q.cap.2.1 ++ '/' :: q.cap.2.2)) }

/-- Matches of the `article` pattern; no `normalized` field is set. -/
def articleMatches (t : List Char) : List CitationMatch :=
  (scanAll pArticle t).map fun q =>
    { text := q.text, type := CitType.article, start := q.start, stop := q.stop,
      normalized := none }

/-- All per-family matches in push order: bge family, then dockets,
then articles (`extractCitations` lines 213-251). -/
def allCandidates (t : List Char) : List CitationMatch :=
  bgeMatches t ++ docketMatches t ++ articleMatches t

/-- `matches.sort((a, b) => a.start - b.start)` — a stable sort by start
offset (JS `Array.prototype.sort` is stable); insertion sort inserting
after existing equal keys is exactly that. -/
def sortByStart (l : List CitationMatch) : List CitationMatch :=
  List.insertionSort (fun a b => a.start ≤ b.start) l

/-- The overlap-removal loop of `extractCitations` (lines 257-264):
fold with the `filtered` array and `lastEnd` cursor as accumulator. -/
def dropOverlapFold (ms : List CitationMatch) : List CitationMatch :=
  (ms.foldl
    (fun acc m => if acc.2 ≤ m.start then (acc.1 ++ [m], m.stop) else acc)
    (([] : List CitationMatch), 0)).1

/-- `extractCitations` (lines 212-267): scan the three families, sort by
start offset, drop overlapping matches first-match-wins. -/
def extractCitations (t : List Char) : List CitationMatch :=
  dropOverlapFold (sortByStart (allCandidates t))

/-- `RegExp.prototype.test` on a global regex whose `lastIndex` is 0:
true iff a first match exists. -/
def regexTestB {α : Type} (m : Option Char → List Char → Option (α × List Char))
    (t : List Char) : Bool :=
  !(scanAll m t).isEmpty

/-- `hasCitations` (lines 270-275): only the `bge` and `docket` patterns
are consulted (short-circuit `||`); the `article` pattern is not. -/
def hasCitations (t : List Char) : Bool :=
  regexTestB pBge t || regexTestB pDocket t

/-- The `lastIndex` registers of the three module-level global regexes
shared by all Recognizer entry points. -/
structure RegexState where
  bgeLast : ℕ
  docketLast : ℕ
  articleLast : ℕ
deriving DecidableEq, Repr

/-- `extractCitations` with the shared regex state threaded explicitly.
The source resets `lastIndex` to 0 before each family's exec loop
(lines 219, 231, 243), so the matches are computed from position 0
whatever the incoming state; each exec loop runs until `exec` returns
`null`, which resets that regex's `lastIndex` to 0 again. -/
def extractCitationsSt (_st : RegexState) (t : List Char) :
    List CitationMatch × RegexState :=
  (extractCitations t, ⟨0, 0, 0⟩)

/-- The overlap-resolution walk as described: walk the start-sorted list
once, keep a match only if its start is at least the end of the last
kept match, else discard it. -/
def keepWalk : ℕ → List CitationMatch → List CitationMatch
  | _, [] => []
  | lastEnd, m :: ms =>
    if lastEnd ≤ m.start then m :: keepWalk m.stop ms else keepWalk lastEnd ms

/-! ## The Text Linker: `LinkedText`
(`src/frontend/components/decision/CitationLink.tsx`, lines 97-136) -/

/-- `text.slice(a, b)` for `0 ≤ a ≤ b ≤ text.length`. -/
def sliceL (t : List Char) (a b : ℕ) : List Char :=
  (t.drop a).take (b - a)

/-- The `citations.forEach` loop of `LinkedText`: accumulates the segment
texts (gap slices and citation texts) together with the `lastIndex`
cursor. -/
def linkSegsCore (t : List Char) (cs : List CitationMatch) :
    List (List Char) × ℕ :=
  cs.foldl
    (fun acc c =>
      ((if acc.2 < c.start then acc.1 ++ [sliceL t acc.2 c.start] else acc.1)
        ++ [c.text], c.stop))
    ([], 0)

/-- The trailing-remainder step of `LinkedText` (lines 131-133): emit the
final literal segment when `lastIndex < text.length`. -/
def finishSegs (t : List Char) (pr : List (List Char) × ℕ) : List (List Char) :=
  if pr.2 < t.length then pr.1 ++ [sliceL t pr.2 t.length] else pr.1

/-- The underlying texts of the segments rendered by `LinkedText`:
the whole text when there are no citations, otherwise the gap texts and
citation texts in order plus the trailing remainder. -/
def linkedTextSegments (t : List Char) : List (List Char) :=
  if (extractCitations t).isEmpty then [t]
  else finishSegs t (linkSegsCore t (extractCitations t))

instance : IsTotal CitationMatch (fun a b => a.start ≤ b.start) :=
  ⟨fun a b => Nat.le_total a.start b.start⟩

instance : IsTrans CitationMatch (fun a b => a.start ≤ b.start) :=
  ⟨fun _ _ _ hab hbc => Nat.le_trans hab hbc⟩

/-- Recursive description of the segment texts produced by the
`citations.forEach` loop plus the trailing remainder. -/
def segsRec (t : List Char) : ℕ → List CitationMatch → List (List Char)
  | k, [] => if k < t.length then [sliceL t k t.length] else []
  | k, c :: cs =>
    (if k < c.start then [sliceL t k c.start] else []) ++
      (c.text :: segsRec t c.stop cs)

/-! ## The Ego-Network Builder: `CitationGraph`
(`src/unnamed/part_002`, lines 185-219) -/

/-- Decision level of a node or citation record. -/
inductive NodeLevel where
  | federal
  | cantonal
deriving DecidableEq, Repr

/-- Direction of a citation relationship. -/
inductive CiteKind where
  | cites
  | cited_by
deriving DecidableEq, Repr

/-- `GraphNode` of `src/unnamed/part_002` (lines 5-11). `isCurrent` is an
optional field in the source; absent means false. -/
structure GraphNode where
  id : String
  label : String
  level : NodeLevel
  date : Option String := none
  isCurrent : Bool := false
deriving DecidableEq, Repr

/-- One entry of the `citations` prop (lines 23-29). -/
structure CitationRecord where
  id : String
  label : String
  level : NodeLevel
  date : Option String := none
  type : CiteKind
deriving DecidableEq, Repr

/-- `GraphLink` of `src/unnamed/part_002` (lines 13-17). -/
structure GraphLink where
  source : String
  target : String
  type : CiteKind
deriving DecidableEq, Repr

/-- The node created for a citation record (lines 199-204): `isCurrent`
is left unset, i.e. false. -/
def nodeOfRecord (c : CitationRecord) : GraphNode :=
  { id := c.id, label := c.label, level := c.level,
    date := c.date, isCurrent := false }

/-- The node half of the `useMemo` builder (lines 186-206): a `Map`
keyed by id, iterated in insertion order — the focal node first, then
each citation record whose id is not yet present. -/
def buildNodes (focal : GraphNode) (cs : List CitationRecord) : List GraphNode :=
  cs.foldl
    (fun acc c =>
      if acc.any (fun n => n.id = c.id) then acc
      else acc ++ [nodeOfRecord c])
    [focal]

/-- The link half of the builder (lines 209-213): one link per citation
record, oriented by its kind, with no guard on the record's id. -/
def buildLinks (focalId : String) (cs : List CitationRecord) : List GraphLink :=
  cs.map fun c =>
    if c.type = CiteKind.cites then ⟨focalId, c.id, c.type⟩
    else ⟨c.id, focalId, c.type⟩

/-- The focal node added first with `isCurrent := true` (lines 189-194). -/
def focalNode (focalId focalLabel : String) (focalLevel : NodeLevel) : GraphNode :=
  { id := focalId, label := focalLabel, level := focalLevel,
    date := none, isCurrent := true }

/-- The full `useMemo` builder: nodes and links of the ego network. -/
def buildGraph (focalId focalLabel : String) (focalLevel : NodeLevel)
    (cs : List CitationRecord) : List GraphNode × List GraphLink :=
  (buildNodes (focalNode focalId focalLabel focalLevel) cs,
   buildLinks focalId cs)

/-- Reference description of node deduplication: keep the first record
per id among those whose id is not in `seen`. -/
def dedupNodes (seen : List String) : List CitationRecord → List GraphNode
  | [] => []
  | c :: cs =>
    if c.id ∈ seen then dedupNodes seen cs
    else nodeOfRecord c :: dedupNodes (c.id :: seen) cs

/-! ## The Force Simulation Engine: `useForceSimulation`
(`src/unnamed/part_002`, lines 37-170)

Numbers are embedded as `ℚ`; `Math.sqrt` is supplied as an oracle
function `sfn` (its output feeds only the `|| 1` guard and the force
expressions).  The decimal constants of the source: alphaDecay `0.02`,
alphaMin `0.001`, centerStrength `0.01`, chargeStrength `-300`,
linkStrength `0.05`, linkDistance `120`, velocity damping `0.6`, focal
damping `0.3`, clamp margin `40`. -/

def alphaDecayQ : ℚ := 1 / 50

def alphaMinQ : ℚ := 1 / 1000

def centerStrengthQ : ℚ := 1 / 100

def chargeStrengthQ : ℚ := -300

def linkStrengthQ : ℚ := 1 / 20

def linkDistanceQ : ℚ := 120

def margin : ℚ := 40

/-- `alpha.value = 1` at simulation start (line 72). -/
def initialAlpha : ℚ := 1

/-- JS `v || 1` on a number: the falsy value 0 is replaced by 1, any
other value passes through unchanged. -/
def jsOr1 (x : ℚ) : ℚ := if x = 0 then 1 else x

/-- The `dist` value of the repulsion and link loops (lines 106 and
124): `Math.sqrt(dx * dx + dy * dy) || 1`. -/
def distOr1 (sfn : ℚ → ℚ) (dx dy : ℚ) : ℚ :=
  jsOr1 (sfn (dx * dx + dy * dy))

/-- The simulation state: per-node position and velocity records plus
the global alpha scalar. -/
structure SimState where
  pos : String → Option (ℚ × ℚ)
  vel : String → Option (ℚ × ℚ)
  alpha : ℚ

/-- Record update `m[k] = v`. -/
def updFn (f : String → Option (ℚ × ℚ)) (k : String) (v : ℚ × ℚ) :
    String → Option (ℚ × ℚ) :=
  fun k2 => if k2 = k then some v else f k2

/-- Pairwise-repulsion accumulation (lines 100-111): for every other
node with a position, add `(chargeStrength * alpha) / dist²` along the
direction away from it. -/
def chargeForce (sfn : ℚ → ℚ) (nodes : List GraphNode)
    (p : String → Option (ℚ × ℚ)) (selfId : String) (x y alpha : ℚ)
    (f0 : ℚ × ℚ) : ℚ × ℚ :=
  nodes.foldl
    (fun f other =>
      if selfId = other.id then f
      else
        match p other.id with
        | none => f
        | some (ox, oy) =>
          let dx := x - ox
          let dy := y - oy
          let dist := distOr1 sfn dx dy
          let force := chargeStrengthQ * alpha / (dist * dist)
          (f.1 + dx / dist * force, f.2 + dy / dist * force))
    f0

/-- Link-spring accumulation (lines 113-129): for each link touching
this node whose endpoints both have positions, add
`(dist - linkDistance) * linkStrength * alpha` toward the other end. -/
def linkForce (sfn : ℚ → ℚ) (links : List GraphLink)
    (p : String → Option (ℚ × ℚ)) (selfId : String) (x y alpha : ℚ)
    (f0 : ℚ × ℚ) : ℚ × ℚ :=
  links.foldl
    (fun f l =>
      if selfId ≠ l.source ∧ selfId ≠ l.target then f
      else
        match p l.source, p l.target with
        | some _, some _ =>
          match p (if selfId = l.source then l.target else l.source) with
          | some (ox, oy) =>
            let dx := ox - x
            let dy := oy - y
            let dist := distOr1 sfn dx dy
            let force := (dist - linkDistanceQ) * linkStrengthQ * alpha
            (f.1 + dx / dist * force, f.2 + dy / dist * force)
          | none => f
        | _, _ => f)
    f0

/-- Both clamped coordinates of the position update (lines 143-146):
`Math.max(40, Math.min(dimension - 40, p + v))` on each axis. -/
def clampPos (w h x y : ℚ) : ℚ × ℚ :=
  (max margin (min (w - margin) x), max margin (min (h - margin) y))

/-- One node's update inside a tick (lines 90-147): accumulate the
centering, repulsion and link forces, damp the velocity (extra focal
damping), then move and clamp.  Nodes without a position are skipped
(line 91); a missing velocity record reads as zero (lines 133-134). -/
def nodeStep (sfn : ℚ → ℚ) (nodes : List GraphNode) (links : List GraphLink)
    (w h alpha : ℚ)
    (st : (String → Option (ℚ × ℚ)) × (String → Option (ℚ × ℚ)))
    (nd : GraphNode) :
    (String → Option (ℚ × ℚ)) × (String → Option (ℚ × ℚ)) :=
  match st.1 nd.id with
  | none => st
  | some (x, y) =>
    let f0 := ((w / 2 - x) * centerStrengthQ, (h / 2 - y) * centerStrengthQ)
    let f1 := chargeForce sfn nodes st.1 nd.id x y alpha f0
    let f2 := linkForce sfn links st.1 nd.id x y alpha f1
    let v0 := (st.2 nd.id).getD (0, 0)
    let v1 := (v0.1 * (3 / 5) + f2.1, v0.2 * (3 / 5) + f2.2)
    let v2 := if nd.isCurrent then (v1.1 * (3 / 10), v1.2 * (3 / 10)) else v1
    (updFn st.1 nd.id (clampPos w h (x + v2.1) (y + v2.2)),
     updFn st.2 nd.id v2)

/-- One simulation tick (lines 76-153): if alpha has fallen below
`alphaMin` the tick is a no-op (no further tick is scheduled in the
source); otherwise every node is updated in order against the mutating
position and velocity records, and alpha decays by `1 - alphaDecay`. -/
def tick (sfn : ℚ → ℚ) (nodes : List GraphNode) (links : List GraphLink)
    (w h : ℚ) (s : SimState) : SimState :=
  if s.alpha < alphaMinQ then s
  else
    { pos := (nodes.foldl (nodeStep sfn nodes links w h s.alpha)
        (s.pos, s.vel)).1,
      vel := (nodes.foldl (nodeStep sfn nodes links w h s.alpha)
        (s.pos, s.vel)).2,
      alpha := s.alpha * (1 - alphaDecayQ) }

/-- `n` consecutive ticks. -/
def tickN (sfn : ℚ → ℚ) (nodes : List GraphNode) (links : List GraphLink)
    (w h : ℚ) : ℕ → SimState → SimState
  | 0, s => s
  | n + 1, s => tickN sfn nodes links w h n (tick sfn nodes links w h s)

/-- Position inside the clamped canvas region. -/
def inBounds (w h : ℚ) (pt : ℚ × ℚ) : Prop :=
  margin ≤ pt.1 ∧ pt.1 ≤ w - margin ∧ margin ≤ pt.2 ∧ pt.2 ≤ h - margin

/-! ## Suffix lemmas for the parser primitives -/

theorem litP_sfx : ∀ pat s r, litP pat s = some r →
    r <:+ s ∧ s.length = r.length + pat.length := by
  intro pat
  induction pat with
  | nil =>
    intro s r h
    simp [litP] at h
    subst h
    exact ⟨List.suffix_refl _, by simp⟩
  | cons c cs ih =>
    intro s r h
    cases s with
    | nil => simp [litP] at h
    | cons x xs =>
      simp only [litP] at h
      split at h
      · obtain ⟨hs, hl⟩ := ih xs r h
        exact ⟨hs.trans (List.suffix_cons x xs), by simp [hl]; omega⟩
      · exact absurd h (by simp)

theorem litCIP_sfx : ∀ pat s r, litCIP pat s = some r →
    r <:+ s ∧ s.length = r.length + pat.length := by
  intro pat
  induction pat with
  | nil =>
    intro s r h
    simp [litCIP] at h
    subst h
    exact ⟨List.suffix_refl _, by simp⟩
  | cons c cs ih =>
    intro s r h
    cases s with
    | nil => simp [litCIP] at h
    | cons x xs =>
      simp only [litCIP] at h
      split at h
      · obtain ⟨hs, hl⟩ := ih xs r h
        exact ⟨hs.trans (List.suffix_cons x xs), by simp [hl]; omega⟩
      · exact absurd h (by simp)

theorem takeWhile1_sfx {f s t r} (h : takeWhile1 f s = some (t, r)) :
    t ++ r = s ∧ t ≠ [] := by
  simp only [takeWhile1] at h
  split at h
  · exact absurd h (by simp)
  · rename_i he
    simp only [Option.some.injEq, Prod.mk.injEq] at h
    obtain ⟨ht, hr⟩ := h
    subst ht; subst hr
    exact ⟨List.takeWhile_append_dropWhile f s, by simpa [List.isEmpty_iff] using he⟩

theorem takeWhile1_suffix {f s t r} (h : takeWhile1 f s = some (t, r)) :
    r <:+ s ∧ r.length < s.length := by
  obtain ⟨happ, hne⟩ := takeWhile1_sfx h
  refine ⟨⟨t, happ⟩, ?_⟩
  have : t.length + r.length = s.length := by
    simpa using congrArg List.length happ
  have ht : 0 < t.length := List.length_pos.mpr hne
  omega

theorem dropWhile_sfx (f : Char → Bool) (s : List Char) :
    s.dropWhile f <:+ s :=
  ⟨s.takeWhile f, List.takeWhile_append_dropWhile f s⟩

/-! ## Suffix lemmas for the family parsers

Each successful parse leaves a strictly shorter true suffix of the
input; the consumed prefix is the match text. -/

theorem orElse_some {α : Type} {x y : Option α} {v : α}
    (h : (x <|> y) = some v) : x = some v ∨ y = some v := by
  cases x with
  | none => right; simpa using h
  | some a => left; simpa using h

theorem pMarker_sfx {s mk r} (h : pMarker s = some (mk, r)) :
    r <:+ s ∧ r.length + 3 = s.length := by
  unfold pMarker at h
  split at h
  · rename_i r1 h1
    simp only [Option.some.injEq, Prod.mk.injEq] at h
    obtain ⟨-, hr⟩ := h; subst hr
    have := litP_sfx _ _ _ h1
    exact ⟨this.1, by simp only [List.length_cons, List.length_nil] at this; omega⟩
  · split at h
    · rename_i r1 h1
      simp only [Option.some.injEq, Prod.mk.injEq] at h
      obtain ⟨-, hr⟩ := h; subst hr
      have := litP_sfx _ _ _ h1
      exact ⟨this.1, by simp only [List.length_cons, List.length_nil] at this; omega⟩
    · split at h
      · rename_i r1 h1
        simp only [Option.some.injEq, Prod.mk.injEq] at h
        obtain ⟨-, hr⟩ := h; subst hr
        have := litP_sfx _ _ _ h1
        exact ⟨this.1, by simp only [List.length_cons, List.length_nil] at this; omega⟩
      · exact absurd h (by simp)

theorem dotNumTail_sfx : ∀ n s, dotNumTail n s <:+ s := by
  intro n
  induction n with
  | zero => intro s; exact List.suffix_refl _
  | succ n ih =>
    intro s
    unfold dotNumTail
    split
    · rename_i rest
      split
      · rename_i t r hw
        exact ((ih r).trans (takeWhile1_suffix hw).1).trans (List.suffix_cons _ _)
      · exact List.suffix_refl _
    · exact List.suffix_refl _

theorem pBgeSection_sfx (s : List Char) : pBgeSection s <:+ s := by
  unfold pBgeSection
  split
  · exact List.suffix_refl _
  · rename_i t r1 hw1
    split
    · exact List.suffix_refl _
    · rename_i r2 h2
      split
      · exact List.suffix_refl _
      · rename_i t2 r4 hw4
        have hr4 : r4 <:+ r2.dropWhile isJsSpace := (takeWhile1_suffix hw4).1
        have hr2 : r2 <:+ r1 := (litP_sfx _ _ _ h2).1
        have hr1 : r1 <:+ s := (takeWhile1_suffix hw1).1
        exact (((dotNumTail_sfx _ _).trans hr4).trans
          ((dropWhile_sfx _ _).trans hr2)).trans hr1

theorem pBge_sfx {prev s caps r} (h : pBge prev s = some (caps, r)) :
    r <:+ s ∧ r.length < s.length := by
  unfold pBge at h
  split at h
  · exact absurd h (by simp)
  split at h
  · exact absurd h (by simp)
  rename_i mk r1 hmk
  split at h
  · exact absurd h (by simp)
  rename_i t1 r2 hw1
  split at h
  · exact absurd h (by simp)
  rename_i vol r3 hw2
  split at h
  · exact absurd h (by simp)
  rename_i t2 r4 hw3
  split at h
  · exact absurd h (by simp)
  rename_i part r5 hw4
  split at h
  · exact absurd h (by simp)
  rename_i t3 r6 hw5
  split at h
  · exact absurd h (by simp)
  rename_i page r7 hw6
  simp only [Option.some.injEq, Prod.mk.injEq] at h
  obtain ⟨-, hr⟩ := h; subst hr
  have h1 := pMarker_sfx hmk
  have h2 := takeWhile1_suffix hw1
  have h3 := takeWhile1_suffix hw2
  have h4 := takeWhile1_suffix hw3
  have h5 := takeWhile1_suffix hw4
  have h6 := takeWhile1_suffix hw5
  have h7 := takeWhile1_suffix hw6
  have hsec := pBgeSection_sfx r7
  refine ⟨((((((hsec.trans h7.1).trans h6.1).trans h5.1).trans h4.1).trans
    h3.1).trans h2.1).trans h1.1, ?_⟩
  have := hsec.length_le
  omega

theorem pDigits4_sfx {s t r} (h : pDigits4 s = some (t, r)) :
    r <:+ s ∧ r.length + 4 = s.length := by
  unfold pDigits4 at h
  split at h
  · rename_i a b c d rr
    split at h
    · simp only [Option.some.injEq, Prod.mk.injEq] at h
      obtain ⟨-, hr⟩ := h; subst hr
      exact ⟨⟨[a, b, c, d], rfl⟩, by simp⟩
    · exact absurd h (by simp)
  · exact absurd h (by simp)

theorem pDocket_sfx {prev s caps r} (h : pDocket prev s = some (caps, r)) :
    r <:+ s ∧ r.length < s.length := by
  unfold pDocket at h
  split at h
  · exact absurd h (by simp)
  split at h
  · rename_i d u r1
    split at h
    · split at h
      · exact absurd h (by simp)
      rename_i num r2 hw1
      split at h
      · exact absurd h (by simp)
      rename_i r3 hl
      split at h
      · exact absurd h (by simp)
      rename_i year r4 h4
      split at h
      · exact absurd h (by simp)
      simp only [Option.some.injEq, Prod.mk.injEq] at h
      obtain ⟨-, hr⟩ := h; subst hr
      have h1 : r1 <:+ d :: u :: '_' :: r1 := ⟨[d, u, '_'], rfl⟩
      have h2 := takeWhile1_suffix hw1
      have h3 := litP_sfx _ _ _ hl
      have h4' := pDigits4_sfx h4
      refine ⟨((h4'.1.trans h3.1).trans h2.1).trans h1, ?_⟩
      have h3l : r2.length = r3.length + 1 := by
        simpa using h3.2
      simp only [List.length_cons]
      omega
    · exact absurd h (by simp)
  · exact absurd h (by simp)

theorem pQualAbs_sfx (s : List Char) : pQualAbs s <:+ s := by
  unfold pQualAbs
  split
  · exact List.suffix_refl _
  · rename_i r2 halt
    split
    · exact List.suffix_refl _
    · rename_i t r4 hw
      have hr2 : r2 <:+ s.dropWhile isJsSpace := by
        rcases orElse_some halt with h | h
        · exact (litCIP_sfx _ _ _ h).1
        · rcases orElse_some h with h | h
          · exact (litCIP_sfx _ _ _ h).1
          · exact (litCIP_sfx _ _ _ h).1
      exact ((takeWhile1_suffix hw).1.trans
        ((dropWhile_sfx _ _).trans hr2)).trans (dropWhile_sfx _ _)

theorem pQualLit_sfx (s : List Char) : pQualLit s <:+ s := by
  unfold pQualLit
  split
  · exact List.suffix_refl _
  · rename_i r2 halt
    have hr2 : r2 <:+ s.dropWhile isJsSpace := by
      rcases orElse_some halt with h | h
      · exact (litCIP_sfx _ _ _ h).1
      · exact (litCIP_sfx _ _ _ h).1
    split
    · rename_i c r4 hr3
      split
      · have h4 : r4 <:+ r2.dropWhile isJsSpace := by
          rw [hr3]; exact List.suffix_cons _ _
        exact (h4.trans ((dropWhile_sfx _ _).trans hr2)).trans (dropWhile_sfx _ _)
      · exact List.suffix_refl _
    · exact List.suffix_refl _

theorem pCode_sfx {s r} (h : pCode s = some r) : r <:+ s := by
  unfold pCode at h
  rcases orElse_some h with h | h
  · exact (litCIP_sfx _ _ _ h).1
  rcases orElse_some h with h | h
  · exact (litCIP_sfx _ _ _ h).1
  rcases orElse_some h with h | h
  · exact (litCIP_sfx _ _ _ h).1
  rcases orElse_some h with h | h
  · exact (litCIP_sfx _ _ _ h).1
  rcases orElse_some h with h | h
  · exact (litCIP_sfx _ _ _ h).1
  rcases orElse_some h with h | h
  · exact (litCIP_sfx _ _ _ h).1
  rcases orElse_some h with h | h
  · exact (litCIP_sfx _ _ _ h).1
  rcases orElse_some h with h | h
  · split at h
    · exact absurd h (by simp)
    · rename_i r1 hcst
      have hr1 : r1 <:+ s := (litCIP_sfx _ _ _ hcst).1
      split at h
      · rename_i r2
        simp only [Option.some.injEq] at h
        subst h
        exact (List.suffix_cons _ _).trans hr1
      · simp only [Option.some.injEq] at h
        subst h
        exact hr1
  rcases orElse_some h with h | h
  · exact (litCIP_sfx _ _ _ h).1
  rcases orElse_some h with h | h
  · exact (litCIP_sfx _ _ _ h).1
  rcases orElse_some h with h | h
  · exact (litCIP_sfx _ _ _ h).1
  rcases orElse_some h with h | h
  · exact (litCIP_sfx _ _ _ h).1
  rcases orElse_some h with h | h
  · exact (litCIP_sfx _ _ _ h).1
  · exact (litCIP_sfx _ _ _ h).1

theorem pArticle_sfx {prev s caps r} (h : pArticle prev s = some (caps, r)) :
    r <:+ s ∧ r.length < s.length := by
  unfold pArticle at h
  split at h
  · exact absurd h (by simp)
  rename_i c cs
  split at h
  · exact absurd h (by simp)
  split at h
  · exact absurd h (by simp)
  rename_i r1 hmk
  split at h
  · exact absurd h (by simp)
  rename_i t r3 hw1
  split at h
  · exact absurd h (by simp)
  rename_i t2 r6 hw2
  split at h
  · exact absurd h (by simp)
  rename_i r7 hcode
  simp only [Option.some.injEq, Prod.mk.injEq] at h
  obtain ⟨-, hr⟩ := h; subst hr
  have hr1 : r1 <:+ c :: cs ∧ (c :: cs).length ≥ r1.length + 2 := by
    rcases orElse_some hmk with hm | hm
    · obtain ⟨hs1, hl1⟩ := litCIP_sfx _ _ _ hm
      simp only [List.length_cons, List.length_nil] at hl1
      exact ⟨hs1, by simp only [List.length_cons]; omega⟩
    · obtain ⟨hs1, hl1⟩ := litP_sfx _ _ _ hm
      simp only [List.length_cons, List.length_nil] at hl1
      exact ⟨hs1, by simp only [List.length_cons]; omega⟩
  have h3 := takeWhile1_suffix hw1
  have hq : pQualLit (pQualAbs r3) <:+ r3 :=
    (pQualLit_sfx _).trans (pQualAbs_sfx _)
  have h6 := takeWhile1_suffix hw2
  have h7 := pCode_sfx hcode
  have hchain : r7 <:+ c :: cs :=
    ((((h7.trans h6.1).trans hq).trans
      (h3.1.trans (dropWhile_sfx _ _))).trans hr1.1)
  refine ⟨hchain, ?_⟩
  have l1 : r7.length ≤ r6.length := h7.length_le
  have l2 : r6.length < (pQualLit (pQualAbs r3)).length := h6.2
  have l3 : (pQualLit (pQualAbs r3)).length ≤ r3.length := hq.length_le
  have l4 : r3.length ≤ (r1.dropWhile isJsSpace).length := h3.1.length_le
  have l5 : (r1.dropWhile isJsSpace).length ≤ r1.length :=
    (dropWhile_sfx _ _).length_le
  have l6 := hr1.2
  simp only [List.length_cons] at l6 ⊢
  omega

/-! ## Invariants of the exec-loop scanner -/

theorem suffix_drop_eq {r s : List Char} (h : r <:+ s) :
    s.drop (s.length - r.length) = r := by
  obtain ⟨t, rfl⟩ := h
  have hl : (t ++ r).length - r.length = t.length := by simp
  rw [hl, List.drop_left]

/-- Every raw match of a suffix-returning parser lies inside the text,
is nonempty, and its `text` field is the corresponding slice. -/
theorem scanGo_inv {α : Type} (m : Option Char → List Char → Option (α × List Char))
    (hm : ∀ prev s a r, m prev s = some (a, r) → r <:+ s) :
    ∀ fuel prev pos (orig : List Char), pos ≤ orig.length →
      ∀ q ∈ scanGo m fuel prev pos (orig.drop pos),
        pos ≤ q.start ∧ q.start < q.stop ∧ q.stop ≤ orig.length ∧
        q.text = (orig.drop q.start).take (q.stop - q.start) := by
  intro fuel
  induction fuel with
  | zero =>
    intro prev pos orig hpos q hq
    simp [scanGo] at hq
  | succ fuel ih =>
    intro prev pos orig hpos q hq
    rw [scanGo, scanStep.eq_def] at hq
    split at hq
    · rename_i a r hmr
      split at hq
      · simp at hq
      · rename_i hn
        set n := (orig.drop pos).length - r.length with hndef
        have hsf : r <:+ orig.drop pos := hm _ _ _ _ hmr
        have hrle : r.length ≤ (orig.drop pos).length := hsf.length_le
        have hlen : (orig.drop pos).length = orig.length - pos := by simp
        have hrdrop : orig.drop (pos + n) = r := by
          rw [← List.drop_drop n pos orig, hndef]
          exact suffix_drop_eq hsf
        rcases List.mem_cons.mp hq with hq | hq
        · subst hq
          refine ⟨le_refl _, ?_, ?_, ?_⟩
          · show pos < pos + n
            omega
          · show pos + n ≤ orig.length
            omega
          · show List.take n (orig.drop pos) = (orig.drop pos).take (pos + n - pos)
            simp
        · rw [← hrdrop] at hq
          have hrec := ih _ (pos + n) orig (by omega) q hq
          exact ⟨by omega, hrec.2.1, hrec.2.2.1, hrec.2.2.2⟩
    · rename_i hmr
      split at hq
      · simp at hq
      · rename_i c s2 heq
        have hpos1 : pos + 1 ≤ orig.length := by
          have := congrArg List.length heq
          simp at this
          omega
        have hs2 : s2 = orig.drop (pos + 1) := by
          have h1 : (orig.drop pos).drop 1 = orig.drop (pos + 1) :=
            List.drop_drop 1 pos orig
          rw [heq] at h1
          simpa using h1
        rw [hs2] at hq
        have hrec := ih (some c) (pos + 1) orig hpos1 q hq
        exact ⟨by omega, hrec.2.1, hrec.2.2.1, hrec.2.2.2⟩

/-! ## Invariants of the candidate lists -/

theorem pBge_suffix : ∀ prev s a r, pBge prev s = some (a, r) → r <:+ s :=
  fun _ _ _ _ h => (pBge_sfx h).1

theorem pDocket_suffix : ∀ prev s a r, pDocket prev s = some (a, r) → r <:+ s :=
  fun _ _ _ _ h => (pDocket_sfx h).1

theorem pArticle_suffix : ∀ prev s a r, pArticle prev s = some (a, r) → r <:+ s :=
  fun _ _ _ _ h => (pArticle_sfx h).1

theorem scanAll_inv {α : Type} (m : Option Char → List Char → Option (α × List Char))
    (hm : ∀ prev s a r, m prev s = some (a, r) → r <:+ s) (t : List Char) :
    ∀ q ∈ scanAll m t, q.start < q.stop ∧ q.stop ≤ t.length ∧
      q.text = (t.drop q.start).take (q.stop - q.start) := by
  intro q hq
  have hq' : q ∈ scanGo m (t.length + 1) none 0 (t.drop 0) := by
    rw [List.drop_zero]; exact hq
  have h := scanGo_inv m hm (t.length + 1) none 0 t (Nat.zero_le _) q hq'
  exact ⟨h.2.1, h.2.2.1, h.2.2.2⟩

/-- Every candidate match is nonempty, lies inside the text, and its
`text` field is the corresponding slice of the text. -/
theorem mem_allCandidates_inv {t : List Char} {m : CitationMatch}
    (h : m ∈ allCandidates t) :
    m.start < m.stop ∧ m.stop ≤ t.length ∧ m.text = sliceL t m.start m.stop := by
  simp only [allCandidates, List.mem_append] at h
  rcases h with (h | h) | h
  · simp only [bgeMatches, List.mem_map] at h
    obtain ⟨q, hq, rfl⟩ := h
    exact scanAll_inv pBge pBge_suffix t q hq
  · simp only [docketMatches, List.mem_map] at h
    obtain ⟨q, hq, rfl⟩ := h
    exact scanAll_inv pDocket pDocket_suffix t q hq
  · simp only [articleMatches, List.mem_map] at h
    obtain ⟨q, hq, rfl⟩ := h
    exact scanAll_inv pArticle pArticle_suffix t q hq

/-! ## Sorting and the overlap walk -/

theorem sortByStart_sorted (l : List CitationMatch) :
    List.Sorted (fun a b => a.start ≤ b.start) (sortByStart l) :=
  List.sorted_insertionSort _ l

theorem sortByStart_perm (l : List CitationMatch) : List.Perm (sortByStart l) l :=
  List.perm_insertionSort _ l

/-- The source's overlap loop is the single walk `keepWalk` started with
`lastEnd = 0`. -/
theorem dropOverlapFold_eq_keepWalk (ms : List CitationMatch) :
    dropOverlapFold ms = keepWalk 0 ms := by
  have key : ∀ (ms : List CitationMatch) (acc : List CitationMatch) (last : ℕ),
      (ms.foldl
        (fun acc m => if acc.2 ≤ m.start then (acc.1 ++ [m], m.stop) else acc)
        (acc, last)).1 = acc ++ keepWalk last ms := by
    intro ms
    induction ms with
    | nil => intro acc last; simp [keepWalk]
    | cons m ms ih =>
      intro acc last
      simp only [List.foldl_cons, keepWalk]
      by_cases hle : last ≤ m.start
      · rw [if_pos hle, if_pos hle, ih]
        simp
      · rw [if_neg hle, if_neg hle, ih]
  simpa [dropOverlapFold] using key ms [] 0

theorem keepWalk_sublist : ∀ (ms : List CitationMatch) (last : ℕ),
    List.Sublist (keepWalk last ms) ms := by
  intro ms
  induction ms with
  | nil => intro last; simp [keepWalk]
  | cons m ms ih =>
    intro last
    rw [keepWalk]
    split
    · exact (ih m.stop).cons₂ m
    · exact (ih last).cons m

/-- Everything the walk keeps starts at or after the running `lastEnd`
(for well-formed matches with `start < stop`). -/
theorem keepWalk_start_ge : ∀ (ms : List CitationMatch),
    (∀ x ∈ ms, x.start < x.stop) →
    ∀ (last : ℕ) (b : CitationMatch), b ∈ keepWalk last ms → last ≤ b.start := by
  intro ms
  induction ms with
  | nil => intro _ last b hb; simp [keepWalk] at hb
  | cons a ms ih =>
    intro hwf last b hb
    rw [keepWalk] at hb
    split at hb
    · rename_i hle
      rcases List.mem_cons.mp hb with hb | hb
      · subst hb; exact hle
      · have h1 := ih (fun x hx => hwf x (List.mem_cons_of_mem a hx)) a.stop b hb
        have h2 := hwf a (List.mem_cons_self a ms)
        omega
    · exact ih (fun x hx => hwf x (List.mem_cons_of_mem a hx)) last b hb

/-- Adjacent survivors of the walk do not overlap. -/
theorem keepWalk_chain : ∀ (ms : List CitationMatch),
    (∀ x ∈ ms, x.start < x.stop) →
    ∀ (last : ℕ), List.Chain' (fun a b => a.stop ≤ b.start) (keepWalk last ms) := by
  intro ms
  induction ms with
  | nil => intro _ last; simp [keepWalk]
  | cons a ms ih =>
    intro hwf last
    have hwf' : ∀ x ∈ ms, x.start < x.stop :=
      fun x hx => hwf x (List.mem_cons_of_mem a hx)
    rw [keepWalk]
    split
    · refine List.chain'_cons'.mpr ⟨?_, ih hwf' a.stop⟩
      intro y hy
      exact keepWalk_start_ge ms hwf' a.stop y (List.mem_of_mem_head? hy)
    · exact ih hwf' last

/-- Once an earlier-starting match is kept, every other survivor starts
at or after its end: an overlapping later candidate is dropped,
regardless of its pattern family. -/
theorem keepWalk_drop_overlapping (lastEnd : ℕ) (a : CitationMatch)
    (ms : List CitationMatch) (hle : lastEnd ≤ a.start)
    (hwf : ∀ x ∈ ms, x.start < x.stop) :
    ∀ b ∈ keepWalk lastEnd (a :: ms), b = a ∨ a.stop ≤ b.start := by
  intro b hb
  rw [keepWalk, if_pos hle] at hb
  rcases List.mem_cons.mp hb with hb | hb
  · exact Or.inl hb
  · exact Or.inr (keepWalk_start_ge ms hwf a.stop b hb)

/-! ## Invariants of `extractCitations` -/

theorem extract_mem_candidates {t : List Char} {m : CitationMatch}
    (h : m ∈ extractCitations t) : m ∈ allCandidates t := by
  rw [extractCitations, dropOverlapFold_eq_keepWalk] at h
  exact (sortByStart_perm (allCandidates t)).mem_iff.mp
    ((keepWalk_sublist _ 0).mem h)

theorem extract_inv {t : List Char} {m : CitationMatch}
    (h : m ∈ extractCitations t) :
    m.start < m.stop ∧ m.stop ≤ t.length ∧ m.text = sliceL t m.start m.stop :=
  mem_allCandidates_inv (extract_mem_candidates h)

theorem sorted_candidates_wf (t : List Char) :
    ∀ x ∈ sortByStart (allCandidates t), x.start < x.stop := by
  intro x hx
  exact (mem_allCandidates_inv ((sortByStart_perm (allCandidates t)).mem_iff.mp hx)).1

theorem extract_sorted (t : List Char) :
    List.Sorted (fun a b => a.start ≤ b.start) (extractCitations t) := by
  rw [extractCitations, dropOverlapFold_eq_keepWalk]
  exact (sortByStart_sorted (allCandidates t)).sublist (keepWalk_sublist _ 0)

theorem extract_chain (t : List Char) :
    List.Chain' (fun a b => a.stop ≤ b.start) (extractCitations t) := by
  rw [extractCitations, dropOverlapFold_eq_keepWalk]
  exact keepWalk_chain _ (sorted_candidates_wf t) 0

/-! ## Round-trip of the Text Linker -/

theorem finish_foldl_eq_segsRec (t : List Char) :
    ∀ (cs : List CitationMatch) (parts : List (List Char)) (k : ℕ),
      finishSegs t (cs.foldl
        (fun acc c =>
          ((if acc.2 < c.start then acc.1 ++ [sliceL t acc.2 c.start] else acc.1)
            ++ [c.text], c.stop)) (parts, k))
      = parts ++ segsRec t k cs := by
  intro cs
  induction cs with
  | nil =>
    intro parts k
    rw [List.foldl_nil, segsRec, finishSegs]
    by_cases h : k < t.length
    · simp [h]
    · simp [h]
  | cons c cs ih =>
    intro parts k
    rw [List.foldl_cons, segsRec]
    by_cases h : k < c.start
    · rw [if_pos h]
      have := ih (parts ++ [sliceL t k c.start] ++ [c.text]) c.stop
      simp only [if_pos h] at this ⊢
      rw [this]
      simp
    · rw [if_neg h]
      have := ih (parts ++ [c.text]) c.stop
      simp only [if_neg h] at this ⊢
      rw [this]
      simp

theorem sliceL_glue {t : List Char} {a b : ℕ} (hab : a ≤ b) (_hb : b ≤ t.length) :
    sliceL t a b ++ t.drop b = t.drop a := by
  have hdrop : (t.drop a).drop (b - a) = t.drop b := by
    rw [List.drop_drop]
    congr 1
    omega
  rw [sliceL, ← hdrop, List.take_append_drop]

theorem segsRec_join (t : List Char) :
    ∀ (cs : List CitationMatch) (k : ℕ),
      k ≤ t.length →
      (∀ m ∈ cs, m.start < m.stop ∧ m.stop ≤ t.length ∧
        m.text = sliceL t m.start m.stop) →
      List.Chain' (fun a b => a.stop ≤ b.start) cs →
      (∀ m ∈ cs.head?, k ≤ m.start) →
      (segsRec t k cs).flatten = t.drop k := by
  intro cs
  induction cs with
  | nil =>
    intro k hk _ _ _
    rw [segsRec]
    by_cases h : k < t.length
    · rw [if_pos h]
      simp only [List.flatten, List.append_nil, sliceL]
      rw [List.take_of_length_le (by simp)]
    · rw [if_neg h]
      have hkl : k = t.length := by omega
      simp [hkl]
  | cons c cs ih =>
    intro k hk hb hch hhd
    have hc := hb c (List.mem_cons_self c cs)
    have hkc : k ≤ c.start := hhd c (by simp)
    have hcsl : c.start ≤ t.length := by omega
    have hchx := List.chain'_cons'.mp hch
    have hih := ih c.stop hc.2.1
      (fun m hm => hb m (List.mem_cons_of_mem c hm)) hchx.2 hchx.1
    rw [segsRec, List.flatten_append, List.flatten_cons, hih, hc.2.2,
      sliceL_glue (le_of_lt hc.1) hc.2.1]
    by_cases hgap : k < c.start
    · rw [if_pos hgap]
      simp only [List.flatten_cons, List.flatten_nil, List.append_nil]
      exact sliceL_glue hkc hcsl
    · rw [if_neg hgap]
      have : k = c.start := by omega
      simp [this]

/-! ## Claim theorems for the Recognizer and the Text Linker -/

/-- C1: Round-trip of the Text Linker — for every input text,
concatenating the underlying text of every segment produced by
`LinkedText` (the literal gap texts and each citation match's text, in
order) reproduces the input text exactly. -/
theorem c1_linkedText_roundTrip :
    ∀ t : List Char, (linkedTextSegments t).flatten = t := by
  intro t
  rw [linkedTextSegments]
  by_cases hemp : (extractCitations t).isEmpty
  · rw [if_pos hemp]
    simp
  · rw [if_neg hemp, linkSegsCore, finish_foldl_eq_segsRec, List.nil_append,
      segsRec_join t (extractCitations t) 0 (Nat.zero_le _)
        (fun m hm => extract_inv hm) (extract_chain t)
        (fun m _ => Nat.zero_le _),
      List.drop_zero]

/-- C3: First-match-wins overlap resolution — `extractCitations` equals
the single walk over the start-sorted list of all per-family matches
that keeps a match only if its start is at least the end of the last
kept match; and once a match is kept, every overlapping later candidate
is dropped (only the earlier-starting one survives), regardless of kind. -/
theorem c3_firstMatchWins :
    (∀ t : List Char,
      extractCitations t = keepWalk 0 (sortByStart (allCandidates t))) ∧
    (∀ (lastEnd : ℕ) (a : CitationMatch) (ms : List CitationMatch),
      lastEnd ≤ a.start → (∀ x ∈ ms, x.start < x.stop) →
      ∀ b ∈ keepWalk lastEnd (a :: ms), b = a ∨ a.stop ≤ b.start) :=
  ⟨fun t => by rw [extractCitations, dropOverlapFold_eq_keepWalk],
   fun lastEnd a ms hle hwf => keepWalk_drop_overlapping lastEnd a ms hle hwf⟩

/-- Witness for C3 at a concrete walk input. -/
theorem c3_firstMatchWins_witness :
    (⟨['b'], CitType.docket, 1, 2, none⟩ : CitationMatch) =
        ⟨['a'], CitType.bge, 0, 1, none⟩ ∨
      (⟨['a'], CitType.bge, 0, 1, none⟩ : CitationMatch).stop ≤
        (⟨['b'], CitType.docket, 1, 2, none⟩ : CitationMatch).start :=
  c3_firstMatchWins.2 0 ⟨['a'], CitType.bge, 0, 1, none⟩
    [⟨['b'], CitType.docket, 1, 2, none⟩] (by decide) (by decide)
    ⟨['b'], CitType.docket, 1, 2, none⟩ (by decide)

/-- C4: Well-formed Recognizer output — every returned match satisfies
`0 ≤ start < stop ≤ length text`, and the returned list is sorted by
start with adjacent pairs non-overlapping (`stop_i ≤ start_{i+1}`). -/
theorem c4_wellFormed (t : List Char) :
    (∀ m ∈ extractCitations t,
      0 ≤ m.start ∧ m.start < m.stop ∧ m.stop ≤ t.length) ∧
    List.Sorted (fun a b => a.start ≤ b.start) (extractCitations t) ∧
    List.Chain' (fun a b => a.stop ≤ b.start) (extractCitations t) :=
  ⟨fun _ hm => ⟨Nat.zero_le _, (extract_inv hm).1, (extract_inv hm).2.1⟩,
   extract_sorted t, extract_chain t⟩

/-- Witness for C4 at a concrete text and match. -/
theorem c4_wellFormed_witness :
    0 ≤ (⟨"1C_123/2024".toList, CitType.docket, 0, 11,
        some "1C_123/2024".toList⟩ : CitationMatch).start ∧
    (⟨"1C_123/2024".toList, CitType.docket, 0, 11,
        some "1C_123/2024".toList⟩ : CitationMatch).start <
      (⟨"1C_123/2024".toList, CitType.docket, 0, 11,
        some "1C_123/2024".toList⟩ : CitationMatch).stop ∧
    (⟨"1C_123/2024".toList, CitType.docket, 0, 11,
        some "1C_123/2024".toList⟩ : CitationMatch).stop ≤
      ("1C_123/2024".toList).length :=
  (c4_wellFormed "1C_123/2024".toList).1 _ (by decide)

/-- C9: Recognizer determinism — with the shared module-level regex
state threaded explicitly, the match list does not depend on the
incoming state, and running the Recognizer twice in sequence on the
identical text yields the identical match list and state. -/
theorem c9_deterministic :
    ∀ (st1 st2 : RegexState) (t : List Char),
      (extractCitationsSt st1 t).1 = (extractCitationsSt st2 t).1 ∧
      extractCitationsSt (extractCitationsSt st1 t).2 t =
        extractCitationsSt st1 t :=
  fun _ _ _ => ⟨rfl, rfl⟩

/-- C10: `hasCitations` consults only the `bge` and `docket` families,
so on the statutory-article text `"Art. 41 OR"` the Recognizer returns a
non-empty match list while `hasCitations` returns `false`. -/
theorem c10_hasCitations_misses_articles :
    extractCitations ("Art. 41 OR".toList) ≠ [] ∧
    hasCitations ("Art. 41 OR".toList) = false := by
  exact ⟨by decide, by decide⟩

/-! ## Lemmas about the node builder -/

theorem dedupNodes_congr : ∀ (cs : List CitationRecord) (s1 s2 : List String),
    (∀ x, x ∈ s1 ↔ x ∈ s2) → dedupNodes s1 cs = dedupNodes s2 cs := by
  intro cs
  induction cs with
  | nil => intro s1 s2 _; rfl
  | cons c cs ih =>
    intro s1 s2 hiff
    rw [dedupNodes, dedupNodes]
    by_cases h : c.id ∈ s1
    · rw [if_pos h, if_pos ((hiff c.id).mp h)]
      exact ih s1 s2 hiff
    · rw [if_neg h, if_neg (fun hx => h ((hiff c.id).mpr hx))]
      rw [ih (c.id :: s1) (c.id :: s2) (by intro x; simp [hiff x])]

theorem buildNodes_foldl : ∀ (cs : List CitationRecord) (acc : List GraphNode),
    cs.foldl
      (fun acc c =>
        if acc.any (fun n => n.id = c.id) then acc
        else acc ++ [nodeOfRecord c])
      acc
    = acc ++ dedupNodes (acc.map (fun n => n.id)) cs := by
  intro cs
  induction cs with
  | nil => intro acc; simp [dedupNodes]
  | cons c cs ih =>
    intro acc
    rw [List.foldl_cons, dedupNodes]
    have hmem : (acc.any (fun n => n.id = c.id) = true) ↔
        c.id ∈ acc.map (fun n => n.id) := by
      simp only [List.any_eq_true, List.mem_map, decide_eq_true_eq]
    by_cases h : c.id ∈ acc.map (fun n => n.id)
    · rw [if_pos (hmem.mpr h), if_pos h, ih]
    · rw [if_neg (fun hb => h (hmem.mp hb)), if_neg h, ih]
      have hcongr := dedupNodes_congr cs
        ((acc ++ [nodeOfRecord c]).map (fun n => n.id))
        (c.id :: acc.map (fun n => n.id))
        (by intro x; simp [nodeOfRecord, or_comm])
      rw [hcongr]
      simp

/-- The built node list is the focal node followed by the first-per-id
citation nodes. -/
theorem buildNodes_spec (focal : GraphNode) (cs : List CitationRecord) :
    buildNodes focal cs = focal :: dedupNodes [focal.id] cs := by
  rw [buildNodes, buildNodes_foldl cs [focal]]
  simp

theorem dedupNodes_isCurrent : ∀ (cs : List CitationRecord) (seen : List String)
    (n : GraphNode), n ∈ dedupNodes seen cs → n.isCurrent = false := by
  intro cs
  induction cs with
  | nil => intro seen n hn; simp [dedupNodes] at hn
  | cons c cs ih =>
    intro seen n hn
    rw [dedupNodes] at hn
    split at hn
    · exact ih seen n hn
    · rcases List.mem_cons.mp hn with hn | hn
      · subst hn; rfl
      · exact ih (c.id :: seen) n hn

theorem dedupNodes_id_notin : ∀ (cs : List CitationRecord) (seen : List String)
    (n : GraphNode), n ∈ dedupNodes seen cs → n.id ∉ seen := by
  intro cs
  induction cs with
  | nil => intro seen n hn; simp [dedupNodes] at hn
  | cons c cs ih =>
    intro seen n hn
    rw [dedupNodes] at hn
    split at hn
    · exact ih seen n hn
    · rcases List.mem_cons.mp hn with hn | hn
      · subst hn
        rename_i h
        exact h
      · intro hx
        exact ih (c.id :: seen) n hn (List.mem_cons_of_mem _ hx)

theorem dedupNodes_nodup : ∀ (cs : List CitationRecord) (seen : List String),
    ((dedupNodes seen cs).map (fun n => n.id)).Nodup := by
  intro cs
  induction cs with
  | nil => intro seen; simp [dedupNodes]
  | cons c cs ih =>
    intro seen
    rw [dedupNodes]
    split
    · exact ih seen
    · simp only [List.map_cons, List.nodup_cons]
      refine ⟨?_, ih (c.id :: seen)⟩
      intro hmem
      obtain ⟨n, hn, hid⟩ := List.mem_map.mp hmem
      exact dedupNodes_id_notin cs (c.id :: seen) n hn
        (by rw [hid]; exact List.mem_cons_self _ _)

theorem dedupNodes_covers : ∀ (cs : List CitationRecord) (seen : List String)
    (c : CitationRecord), c ∈ cs →
    c.id ∈ seen ∨ c.id ∈ (dedupNodes seen cs).map (fun n => n.id) := by
  intro cs
  induction cs with
  | nil => intro seen c hc; simp at hc
  | cons c0 cs ih =>
    intro seen c hc
    rw [dedupNodes]
    by_cases h0 : c0.id ∈ seen
    · rw [if_pos h0]
      rcases List.mem_cons.mp hc with hc | hc
      · subst hc; exact Or.inl h0
      · exact ih seen c hc
    · rw [if_neg h0]
      rcases List.mem_cons.mp hc with hc | hc
      · subst hc
        exact Or.inr (by simp [nodeOfRecord])
      · rcases ih (c0.id :: seen) c hc with h | h
        · rcases List.mem_cons.mp h with h | h
          · exact Or.inr (by simp [nodeOfRecord, h])
          · exact Or.inl h
        · exact Or.inr (by simp only [List.map_cons]; exact List.mem_cons_of_mem _ h)

theorem dedupNodes_first : ∀ (cs : List CitationRecord) (seen : List String)
    (n : GraphNode), n ∈ dedupNodes seen cs →
    ∃ c, cs.find? (fun r => r.id == n.id) = some c ∧
      n = nodeOfRecord c ∧ c.id ∉ seen := by
  intro cs
  induction cs with
  | nil => intro seen n hn; simp [dedupNodes] at hn
  | cons c0 cs ih =>
    intro seen n hn
    have hnot : n.id ∉ seen := dedupNodes_id_notin (c0 :: cs) seen n hn
    rw [dedupNodes] at hn
    split at hn
    · rename_i h0
      obtain ⟨c, hfind, hnc, hcs⟩ := ih seen n hn
      have hne : (c0.id == n.id) = false := by
        simp only [beq_eq_false_iff_ne, ne_eq]
        intro hx
        exact hnot (hx ▸ h0)
      refine ⟨c, ?_, hnc, hcs⟩
      rw [List.find?_cons_of_neg _ (by simp [hne])]
      exact hfind
    · rename_i h0
      rcases List.mem_cons.mp hn with hn | hn
      · subst hn
        exact ⟨c0, by rw [List.find?_cons_of_pos _ (by simp [nodeOfRecord])], rfl, h0⟩
      · obtain ⟨c, hfind, hnc, hcs⟩ := ih (c0.id :: seen) n hn
        have hcne : c.id ≠ c0.id := fun hx => hcs (by simp [hx])
        have hnc0 : n.id ≠ c0.id := by
          rw [hnc]
          exact hcne
        refine ⟨c, ?_, hnc, fun hx => hcs (List.mem_cons_of_mem _ hx)⟩
        rw [List.find?_cons_of_neg _ (by simp; exact fun hx => hnc0 hx.symm)]
        exact hfind

/-! ## Claim theorems for the Ego-Network Builder -/

theorem buildGraph_nodes_spec (focalId focalLabel : String)
    (focalLevel : NodeLevel) (cs : List CitationRecord) :
    (buildGraph focalId focalLabel focalLevel cs).1 =
      focalNode focalId focalLabel focalLevel :: dedupNodes [focalId] cs := by
  show buildNodes (focalNode focalId focalLabel focalLevel) cs = _
  rw [buildNodes_spec]
  rfl

/-- C8: Node uniqueness — the built node list has pairwise-distinct ids,
exactly one node carries the focal flag (`isCurrent = true`), every
citation record's id is represented by a node, and each non-focal node
is built from the first record bearing its id (first occurrence wins). -/
theorem c8_nodeUniqueness (focalId focalLabel : String) (focalLevel : NodeLevel)
    (cs : List CitationRecord) :
    ((buildGraph focalId focalLabel focalLevel cs).1.map (fun n => n.id)).Nodup ∧
    ((buildGraph focalId focalLabel focalLevel cs).1.filter
      (fun n => n.isCurrent)).length = 1 ∧
    (∀ c ∈ cs, ∃ n ∈ (buildGraph focalId focalLabel focalLevel cs).1,
      n.id = c.id) ∧
    (∀ n ∈ (buildGraph focalId focalLabel focalLevel cs).1,
      n.isCurrent = false →
      ∃ c, cs.find? (fun r => r.id == n.id) = some c ∧ n = nodeOfRecord c) := by
  rw [buildGraph_nodes_spec]
  refine ⟨?_, ?_, ?_, ?_⟩
  · simp only [List.map_cons, List.nodup_cons]
    constructor
    · intro hmem
      obtain ⟨n, hn, hid⟩ := List.mem_map.mp hmem
      exact dedupNodes_id_notin cs [focalId] n hn
        (by rw [hid]; exact List.mem_singleton.mpr rfl)
    · exact dedupNodes_nodup cs [focalId]
  · rw [List.filter_cons_of_pos (by rfl)]
    have hnil : (dedupNodes [focalId] cs).filter (fun n => n.isCurrent) = [] := by
      apply List.filter_eq_nil_iff.mpr
      intro n hn
      simp [dedupNodes_isCurrent cs [focalId] n hn]
    rw [hnil]
    rfl
  · intro c hc
    rcases dedupNodes_covers cs [focalId] c hc with h | h
    · refine ⟨focalNode focalId focalLabel focalLevel,
        List.mem_cons_self _ _, ?_⟩
      have : c.id = focalId := List.mem_singleton.mp h
      simp [focalNode, this]
    · obtain ⟨n, hn, hid⟩ := List.mem_map.mp h
      exact ⟨n, List.mem_cons_of_mem _ hn, hid⟩
  · intro n hn hcur
    rcases List.mem_cons.mp hn with hn | hn
    · rw [hn] at hcur
      simp [focalNode] at hcur
    · obtain ⟨c, hfind, hnc, -⟩ := dedupNodes_first cs [focalId] n hn
      exact ⟨c, hfind, hnc⟩

/-- Witness for C8 at the spec's ego-network scenario. -/
theorem c8_nodeUniqueness_witness :
    ∃ n ∈ (buildGraph "X" "X" NodeLevel.federal
      [⟨"A", "A", NodeLevel.federal, none, CiteKind.cites⟩,
       ⟨"B", "B", NodeLevel.federal, none, CiteKind.cited_by⟩,
       ⟨"A", "A2", NodeLevel.federal, none, CiteKind.cited_by⟩]).1,
      n.id = "A" :=
  (c8_nodeUniqueness "X" "X" NodeLevel.federal
    [⟨"A", "A", NodeLevel.federal, none, CiteKind.cites⟩,
     ⟨"B", "B", NodeLevel.federal, none, CiteKind.cited_by⟩,
     ⟨"A", "A2", NodeLevel.federal, none, CiteKind.cited_by⟩]).2.2.1
    ⟨"A", "A", NodeLevel.federal, none, CiteKind.cites⟩ (by decide)

/-- C2 counterexample: with focal id `"a"` and one citation record whose
id is also `"a"`, the builder creates an edge whose `source` and
`target` both equal `"a"` — the record does contribute an edge, and it
is a self-loop, contrary to the claim. -/
theorem c2_counterexample :
    ¬ (∀ e ∈ (buildGraph "a" "A" NodeLevel.federal
        [⟨"a", "A", NodeLevel.federal, none, CiteKind.cites⟩]).2,
        e.source ≠ e.target) := by
  intro h
  exact h ⟨"a", "a", CiteKind.cites⟩ (by decide) rfl

/-- C2 (amended): a record whose id equals the focal id contributes no
node — any node bearing the focal id is the focal node itself — but it
does contribute an edge, namely a self-loop at the focal id.  Every
record contributes exactly one edge, every edge touches the focal id,
a self-loop arises only at the focal id, and a focal-id record always
produces one. -/
theorem c2_selfEdges (focalId focalLabel : String) (focalLevel : NodeLevel)
    (cs : List CitationRecord) :
    (∀ n ∈ (buildGraph focalId focalLabel focalLevel cs).1,
      n.id = focalId → n.isCurrent = true) ∧
    (buildGraph focalId focalLabel focalLevel cs).2.length = cs.length ∧
    (∀ e ∈ (buildGraph focalId focalLabel focalLevel cs).2,
      e.source = focalId ∨ e.target = focalId) ∧
    (∀ e ∈ (buildGraph focalId focalLabel focalLevel cs).2,
      e.source = e.target → e.source = focalId ∧ e.target = focalId) ∧
    (∀ c ∈ cs, c.id = focalId →
      ∃ e ∈ (buildGraph focalId focalLabel focalLevel cs).2,
        e.source = e.target) := by
  refine ⟨?_, ?_, ?_, ?_, ?_⟩
  · rw [buildGraph_nodes_spec]
    intro n hn hid
    rcases List.mem_cons.mp hn with hn | hn
    · rw [hn]; rfl
    · exact absurd (List.mem_singleton.mpr hid)
        (dedupNodes_id_notin cs [focalId] n hn)
  · show (buildLinks focalId cs).length = cs.length
    rw [buildLinks, List.length_map]
  · intro e he
    obtain ⟨c, -, hec⟩ := List.mem_map.mp he
    by_cases ht : c.type = CiteKind.cites
    · rw [if_pos ht] at hec
      exact Or.inl (by rw [← hec])
    · rw [if_neg ht] at hec
      exact Or.inr (by rw [← hec])
  · intro e he hst
    obtain ⟨c, -, hec⟩ := List.mem_map.mp he
    by_cases ht : c.type = CiteKind.cites
    · rw [if_pos ht] at hec
      rw [← hec] at hst ⊢
      exact ⟨rfl, hst.symm⟩
    · rw [if_neg ht] at hec
      rw [← hec] at hst ⊢
      exact ⟨hst, rfl⟩
  · intro c hc hid
    refine ⟨if c.type = CiteKind.cites then ⟨focalId, c.id, c.type⟩
      else ⟨c.id, focalId, c.type⟩, List.mem_map_of_mem _ hc, ?_⟩
    by_cases ht : c.type = CiteKind.cites
    · rw [if_pos ht]
      exact hid.symm
    · rw [if_neg ht]
      exact hid

/-- Witness for C2 at the concrete focal-id record. -/
theorem c2_selfEdges_witness :
    ∃ e ∈ (buildGraph "a" "A" NodeLevel.federal
      [⟨"a", "A", NodeLevel.federal, none, CiteKind.cites⟩]).2,
      e.source = e.target :=
  (c2_selfEdges "a" "A" NodeLevel.federal
    [⟨"a", "A", NodeLevel.federal, none, CiteKind.cites⟩]).2.2.2.2
    ⟨"a", "A", NodeLevel.federal, none, CiteKind.cites⟩ (by decide) rfl

/-! ## Lemmas and claim theorems for the Force Simulation Engine -/

/-- C5 counterexample: take this node at (0, 0) and the other node at
(3/10, 2/5).  The squared distance is 1/4 and the true square root is
1/2 (second conjunct), so any faithful `Math.sqrt` oracle returns 1/2
here; the `dist` value used in the repulsion denominator is then 1/2,
which is not at least 1: `|| 1` replaces only an exact zero, it does
not floor the distance at 1. -/
theorem c5_counterexample :
    distOr1 (fun q => if q = 1 / 4 then 1 / 2 else 0) (3 / 10) (2 / 5) = 1 / 2 ∧
    ((1 : ℚ) / 2) * (1 / 2) = (3 / 10 : ℚ) * (3 / 10) + (2 / 5 : ℚ) * (2 / 5) ∧
    ¬ ((1 : ℚ) ≤ 1 / 2) := by
  refine ⟨?_, by norm_num, by norm_num⟩
  norm_num [distOr1, jsOr1]

/-- C5 (amended): the `dist` value used in the force denominators is
positive for any nonnegative `Math.sqrt` oracle — equal to exactly 1
when the two positions coincide (raw distance 0) — so the repulsion
magnitude is finite and no division by zero occurs; but the value is
not floored at 1 for small nonzero distances. -/
theorem c5_distanceGuard (sfn : ℚ → ℚ) (hpos : ∀ q, 0 ≤ sfn q)
    (hzero : sfn 0 = 0) (dx dy : ℚ) :
    0 < distOr1 sfn dx dy ∧
    distOr1 sfn 0 0 = 1 ∧
    distOr1 sfn dx dy * distOr1 sfn dx dy ≠ 0 := by
  have h1 : 0 < distOr1 sfn dx dy := by
    rw [distOr1, jsOr1]
    split
    · norm_num
    · rename_i hne
      exact lt_of_le_of_ne (hpos _) (Ne.symm hne)
  refine ⟨h1, ?_, (mul_pos h1 h1).ne'⟩
  rw [distOr1]
  norm_num [hzero, jsOr1]

/-- Witness for C5 at a concrete oracle and offsets. -/
theorem c5_distanceGuard_witness :
    0 < distOr1 (fun _ => 0) 7 9 ∧ distOr1 (fun _ => 0) 0 0 = 1 ∧
      distOr1 (fun _ => 0) 7 9 * distOr1 (fun _ => 0) 7 9 ≠ 0 :=
  c5_distanceGuard (fun _ => 0) (fun _ => le_refl 0) rfl 7 9

theorem clampPos_inBounds {w h : ℚ} (hw : 80 ≤ w) (hh : 80 ≤ h) (x y : ℚ) :
    inBounds w h (clampPos w h x y) := by
  rw [inBounds, clampPos]
  refine ⟨le_max_left _ _, ?_, le_max_left _ _, ?_⟩
  · exact max_le (by rw [margin]; linarith) (min_le_left _ _)
  · exact max_le (by rw [margin]; linarith) (min_le_left _ _)

theorem nodeStep_pointwise (sfn : ℚ → ℚ) (nodes : List GraphNode)
    (links : List GraphLink) {w h : ℚ} (alpha : ℚ)
    (hw : 80 ≤ w) (hh : 80 ≤ h)
    (st : (String → Option (ℚ × ℚ)) × (String → Option (ℚ × ℚ)))
    (nd : GraphNode) (k : String) :
    (nodeStep sfn nodes links w h alpha st nd).1 k = st.1 k ∨
    ∃ pt, (nodeStep sfn nodes links w h alpha st nd).1 k = some pt ∧
      inBounds w h pt := by
  unfold nodeStep
  split
  · exact Or.inl rfl
  · by_cases hk : k = nd.id
    · right
      dsimp only
      simp only [updFn, if_pos hk]
      exact ⟨_, rfl, clampPos_inBounds hw hh _ _⟩
    · left
      dsimp only
      simp only [updFn, if_neg hk]

theorem nodeStep_self (sfn : ℚ → ℚ) (nodes : List GraphNode)
    (links : List GraphLink) {w h : ℚ} (alpha : ℚ)
    (hw : 80 ≤ w) (hh : 80 ≤ h)
    (st : (String → Option (ℚ × ℚ)) × (String → Option (ℚ × ℚ)))
    (nd : GraphNode) (hsome : (st.1 nd.id).isSome) :
    ∃ pt, (nodeStep sfn nodes links w h alpha st nd).1 nd.id = some pt ∧
      inBounds w h pt := by
  unfold nodeStep
  split
  · rename_i hnone
    rw [hnone] at hsome
    simp at hsome
  · dsimp only
    simp only [updFn, if_pos rfl]
    exact ⟨_, rfl, clampPos_inBounds hw hh _ _⟩

theorem nodeStep_isSome (sfn : ℚ → ℚ) (nodes : List GraphNode)
    (links : List GraphLink) {w h : ℚ} (alpha : ℚ)
    (hw : 80 ≤ w) (hh : 80 ≤ h)
    (st : (String → Option (ℚ × ℚ)) × (String → Option (ℚ × ℚ)))
    (nd : GraphNode) (k : String) (hsome : (st.1 k).isSome) :
    ((nodeStep sfn nodes links w h alpha st nd).1 k).isSome := by
  rcases nodeStep_pointwise sfn nodes links alpha hw hh st nd k with
    heq | ⟨pt, heq, -⟩
  · rw [heq]; exact hsome
  · rw [heq]; rfl

theorem foldl_pres_clamped (sfn : ℚ → ℚ) (nodes : List GraphNode)
    (links : List GraphLink) {w h : ℚ} (alpha : ℚ)
    (hw : 80 ≤ w) (hh : 80 ≤ h) :
    ∀ (l : List GraphNode)
      (st : (String → Option (ℚ × ℚ)) × (String → Option (ℚ × ℚ)))
      (k : String) (pt : ℚ × ℚ), st.1 k = some pt → inBounds w h pt →
      ∃ pt2, ((l.foldl (nodeStep sfn nodes links w h alpha) st).1 k) = some pt2 ∧
        inBounds w h pt2 := by
  intro l
  induction l with
  | nil => exact fun st k pt h hb => ⟨pt, h, hb⟩
  | cons nd l ih =>
    intro st k pt h hb
    rw [List.foldl_cons]
    rcases nodeStep_pointwise sfn nodes links alpha hw hh st nd k with
      heq | ⟨pt2, heq, hb2⟩
    · exact ih _ k pt (by rw [heq]; exact h) hb
    · exact ih _ k pt2 heq hb2

theorem foldl_clamps (sfn : ℚ → ℚ) (nodes : List GraphNode)
    (links : List GraphLink) {w h : ℚ} (alpha : ℚ)
    (hw : 80 ≤ w) (hh : 80 ≤ h) :
    ∀ (l : List GraphNode)
      (st : (String → Option (ℚ × ℚ)) × (String → Option (ℚ × ℚ))),
      (∀ nd ∈ l, (st.1 nd.id).isSome) →
      ∀ nd ∈ l, ∃ pt,
        ((l.foldl (nodeStep sfn nodes links w h alpha) st).1 nd.id) = some pt ∧
        inBounds w h pt := by
  intro l
  induction l with
  | nil => intro st _ nd hnd; simp at hnd
  | cons nd0 l ih =>
    intro st hsome nd hnd
    rw [List.foldl_cons]
    rcases List.mem_cons.mp hnd with h | h
    · subst h
      obtain ⟨pt, hp, hbp⟩ := nodeStep_self sfn nodes links alpha hw hh st nd
        (hsome nd (List.mem_cons_self _ _))
      exact foldl_pres_clamped sfn nodes links alpha hw hh l _ nd.id pt hp hbp
    · exact ih _
        (fun nd2 hnd2 => nodeStep_isSome sfn nodes links alpha hw hh st nd0 nd2.id
          (hsome nd2 (List.mem_cons_of_mem _ hnd2)))
        nd h

theorem tick_allIn (sfn : ℚ → ℚ) (nodes : List GraphNode)
    (links : List GraphLink) {w h : ℚ} (hw : 80 ≤ w) (hh : 80 ≤ h)
    (s : SimState) (halpha : ¬ (s.alpha < alphaMinQ))
    (hsome : ∀ nd ∈ nodes, (s.pos nd.id).isSome) :
    ∀ nd ∈ nodes, ∃ pt, (tick sfn nodes links w h s).pos nd.id = some pt ∧
      inBounds w h pt := by
  intro nd hnd
  rw [tick, if_neg halpha]
  exact foldl_clamps sfn nodes links s.alpha hw hh nodes (s.pos, s.vel) hsome nd hnd

theorem tick_pres_allIn (sfn : ℚ → ℚ) (nodes : List GraphNode)
    (links : List GraphLink) {w h : ℚ} (hw : 80 ≤ w) (hh : 80 ≤ h)
    (s : SimState)
    (hin : ∀ nd ∈ nodes, ∃ pt, s.pos nd.id = some pt ∧ inBounds w h pt) :
    ∀ nd ∈ nodes, ∃ pt, (tick sfn nodes links w h s).pos nd.id = some pt ∧
      inBounds w h pt := by
  rw [tick]
  split
  · exact hin
  · intro nd hnd
    exact foldl_clamps sfn nodes links s.alpha hw hh nodes (s.pos, s.vel)
      (fun nd2 hnd2 => by
        obtain ⟨pt, hp, -⟩ := hin nd2 hnd2
        show (s.pos nd2.id).isSome
        rw [hp]
        rfl)
      nd hnd

theorem tickN_pres_allIn (sfn : ℚ → ℚ) (nodes : List GraphNode)
    (links : List GraphLink) {w h : ℚ} (hw : 80 ≤ w) (hh : 80 ≤ h) :
    ∀ (n : ℕ) (s : SimState),
      (∀ nd ∈ nodes, ∃ pt, s.pos nd.id = some pt ∧ inBounds w h pt) →
      ∀ nd ∈ nodes, ∃ pt, (tickN sfn nodes links w h n s).pos nd.id = some pt ∧
        inBounds w h pt := by
  intro n
  induction n with
  | zero => exact fun s hin => hin
  | succ n ih =>
    intro s hin
    rw [tickN]
    exact ih _ (tick_pres_allIn sfn nodes links hw hh s hin)

/-- C6 counterexample: canvas width 50 is smaller than twice the margin,
so the clamp interval `[margin, width - margin] = [40, 10]` is empty;
after one tick the (only) node sits at x = 40, which is not at most
`width - margin`.  The claim quantified over every canvas size is
therefore false. -/
theorem c6_counterexample :
    (tickN (fun _ => 0) [⟨"n", "N", NodeLevel.federal, none, false⟩] [] 50 400 1
      ⟨fun i => if i = "n" then some (25, 200) else none, fun _ => none, 1⟩).pos
        "n" = some (40, 200) ∧
    ¬ ((40 : ℚ) ≤ 50 - margin) := by
  constructor
  · rw [tickN, tickN, tick]
    norm_num [alphaMinQ, nodeStep, chargeForce, linkForce, updFn, clampPos,
      margin, centerStrengthQ, distOr1, jsOr1, alphaDecayQ]
  · norm_num [margin]

/-- C6 (amended): boundary containment — for canvases at least twice the
margin wide and high (80 ≤ width, 80 ≤ height), starting from any state
whose alpha is at least the stop threshold (as the initial alpha 1.0 is)
and in which every node has a position, after one or more ticks every
node's position lies within `[margin, width - margin] × [margin,
height - margin]`, whatever the sqrt oracle, the links, and the forces. -/
theorem c6_containment (sfn : ℚ → ℚ) (nodes : List GraphNode)
    (links : List GraphLink) (w h : ℚ) (s : SimState) (n : ℕ)
    (hw : 80 ≤ w) (hh : 80 ≤ h) (halpha : alphaMinQ ≤ s.alpha) (hn : 1 ≤ n)
    (hsome : ∀ nd ∈ nodes, (s.pos nd.id).isSome) :
    ∀ nd ∈ nodes, ∃ pt, (tickN sfn nodes links w h n s).pos nd.id = some pt ∧
      inBounds w h pt := by
  obtain ⟨m, rfl⟩ : ∃ m, n = m + 1 := ⟨n - 1, by omega⟩
  rw [tickN]
  exact tickN_pres_allIn sfn nodes links hw hh m _
    (tick_allIn sfn nodes links hw hh s (not_lt.mpr halpha) hsome)

/-- Witness for C6 at a concrete out-of-bounds start. -/
theorem c6_containment_witness :
    ∃ pt, (tickN (fun _ => 0) [⟨"n", "N", NodeLevel.federal, none, false⟩] []
      100 100 1
      ⟨fun i => if i = "n" then some (0, 0) else none, fun _ => none, 1⟩).pos
        "n" = some pt ∧ inBounds 100 100 pt :=
  c6_containment (fun _ => 0) [⟨"n", "N", NodeLevel.federal, none, false⟩] []
    100 100 ⟨fun i => if i = "n" then some (0, 0) else none, fun _ => none, 1⟩ 1
    (by norm_num) (by norm_num) (by norm_num [alphaMinQ]) (le_refl 1)
    (by intro nd hnd; simp at hnd; subst hnd; simp)
    ⟨"n", "N", NodeLevel.federal, none, false⟩ (List.mem_cons_self _ _)

theorem tickN_succ (sfn : ℚ → ℚ) (nodes : List GraphNode)
    (links : List GraphLink) (w h : ℚ) :
    ∀ (n : ℕ) (s : SimState),
      tickN sfn nodes links w h (n + 1) s =
        tick sfn nodes links w h (tickN sfn nodes links w h n s) := by
  intro n
  induction n with
  | zero => intro s; rfl
  | succ n ih =>
    intro s
    rw [show tickN sfn nodes links w h (n + 1 + 1) s =
        tickN sfn nodes links w h (n + 1) (tick sfn nodes links w h s) from rfl,
      ih, show tickN sfn nodes links w h (n + 1) s =
        tickN sfn nodes links w h n (tick sfn nodes links w h s) from rfl]

theorem alpha_evolution (sfn : ℚ → ℚ) (nodes : List GraphNode)
    (links : List GraphLink) (w h : ℚ) (s : SimState) :
    ∀ n : ℕ,
      (tickN sfn nodes links w h n s).alpha = s.alpha * (1 - alphaDecayQ) ^ n ∨
      (tickN sfn nodes links w h n s).alpha < alphaMinQ := by
  intro n
  induction n with
  | zero => left; simp [tickN]
  | succ n ih =>
    rw [tickN_succ]
    by_cases hlt : (tickN sfn nodes links w h n s).alpha < alphaMinQ
    · right
      rw [tick, if_pos hlt]
      exact hlt
    · rcases ih with ih | ih
      · left
        rw [tick, if_neg hlt]
        dsimp only
        rw [ih, pow_succ]
        ring
      · exact absurd ih hlt

theorem alpha_below (sfn : ℚ → ℚ) (nodes : List GraphNode)
    (links : List GraphLink) (w h : ℚ) (s : SimState)
    (hs : s.alpha = initialAlpha) :
    ∀ n : ℕ, 342 ≤ n → (tickN sfn nodes links w h n s).alpha < alphaMinQ := by
  intro n hn
  rcases alpha_evolution sfn nodes links w h s n with h | h
  · rw [h, hs, initialAlpha, one_mul]
    calc (1 - alphaDecayQ) ^ n ≤ (1 - alphaDecayQ) ^ 342 :=
          pow_le_pow_of_le_one (by norm_num [alphaDecayQ])
            (by norm_num [alphaDecayQ]) hn
      _ < alphaMinQ := by norm_num [alphaDecayQ, alphaMinQ]
  · exact h

/-- C7: Convergence — alpha starts at 1.0; every executed tick
multiplies alpha by `1 - 0.02`, whatever the sqrt oracle, nodes, links
and canvas (independent of the force outcomes); once alpha has fallen
below 0.001 a tick is a no-op, so no further tick changes the state;
and from the initial alpha the state stops changing after at most 342
ticks — only a bounded number of effective ticks ever run. -/
theorem c7_convergence :
    initialAlpha = 1 ∧
    (∀ (sfn : ℚ → ℚ) (nodes : List GraphNode) (links : List GraphLink)
      (w h : ℚ) (s : SimState), alphaMinQ ≤ s.alpha →
      (tick sfn nodes links w h s).alpha = s.alpha * (1 - alphaDecayQ)) ∧
    (∀ (sfn : ℚ → ℚ) (nodes : List GraphNode) (links : List GraphLink)
      (w h : ℚ) (s : SimState), s.alpha < alphaMinQ →
      tick sfn nodes links w h s = s) ∧
    (∀ (sfn : ℚ → ℚ) (nodes : List GraphNode) (links : List GraphLink)
      (w h : ℚ) (s : SimState), s.alpha = initialAlpha →
      ∀ n : ℕ, 342 ≤ n →
      tickN sfn nodes links w h (n + 1) s = tickN sfn nodes links w h n s) := by
  refine ⟨rfl, ?_, ?_, ?_⟩
  · intro sfn nodes links w h s hge
    rw [tick, if_neg (not_lt.mpr hge)]
  · intro sfn nodes links w h s hlt
    rw [tick, if_pos hlt]
  · intro sfn nodes links w h s hs n hn
    rw [tickN_succ, tick,
      if_pos (alpha_below sfn nodes links w h s hs n hn)]

/-- Witness for C7: one executed tick decays alpha; after tick 342 the
state is frozen. -/
theorem c7_convergence_witness :
    (tick (fun _ => 0) [] [] 0 0 ⟨fun _ => none, fun _ => none, 1⟩).alpha =
      1 * (1 - alphaDecayQ) ∧
    tickN (fun _ => 0) [] [] 0 0 343
        ⟨fun _ => none, fun _ => none, initialAlpha⟩ =
      tickN (fun _ => 0) [] [] 0 0 342
        ⟨fun _ => none, fun _ => none, initialAlpha⟩ :=
  ⟨c7_convergence.2.1 (fun _ => 0) [] [] 0 0 _ (by norm_num [alphaMinQ]),
   c7_convergence.2.2.2 (fun _ => 0) [] [] 0 0 _ rfl 342 (le_refl 342)⟩

end Caselaw
